import Mathlib

/-!
sfxr-qt: history list and command line handling.

A shallow embedding of `src/core/historymodel.cpp` and `src/ui/main.cpp`, with
the statements of the specification proved over it.

Conventions of the embedding.

* A `QString` is the list of its characters.
* A `Sound*` is an address into a heap of `Sound` objects. The class `Sound` is
  declared in `sound.h`, outside the files embedded, so the parameter values of
  one `Sound` object are a value of an arbitrary type `P`; `default : P` stands
  for the parameter values of a freshly constructed `Sound`.
* Qt library calls whose result is not fixed by the repository (URL parsing,
  string to integer conversion) are fields of an environment record.
-/

namespace SfxrQt

/-! ## Data model of `HistoryModel` -/

/-- A `QString`, as the list of its characters. -/
abbrev QString := List Char

/-- A `Sound*`: the address of a `Sound` object in the heap. -/
abbrev SoundPtr := Nat

/-- The constant `static const int HISTORY_MAX_SIZE = 30;`. -/
def HISTORY_MAX_SIZE : Nat := 30

/-- The element type of `HistoryModel::mItems`: a label and a pointer to the
`Sound` object that holds the parameter copy. -/
structure SoundInfo where
  text : QString
  sound : SoundPtr
deriving DecidableEq, Repr

/-- The row notifications `append` brackets its list updates with
(`beginRemoveRows`/`endRemoveRows`, `beginInsertRows`/`endInsertRows`), each
with the `first` and `last` row it was given. -/
inductive Signal where
  | rowsRemoved (first last : Int)
  | rowsInserted (first last : Int)
deriving DecidableEq, Repr

/-- The memory `HistoryModel::append` works on: the heap of `Sound` objects
(`sounds`, indexed by address), the member `mItems`, and the row notifications
sent so far. -/
structure State (P : Type) where
  sounds : List P
  mItems : List SoundInfo
  signals : List Signal

/-- A `QModelIndex`, reduced to what `isValid()` and `row()` read. -/
structure QModelIndex where
  row : Int
  column : Int
  hasModel : Bool
deriving DecidableEq, Repr

/-- Embedding of `QModelIndex::isValid()`: row and column are non-negative and
the index belongs to a model. -/
def QModelIndex.isValid (idx : QModelIndex) : Bool :=
  decide (0 ≤ idx.row) && decide (0 ≤ idx.column) && idx.hasModel

/-- The index `QModelIndex()`: the default constructed (root) index. -/
def QModelIndex.root : QModelIndex := { row := -1, column := -1, hasModel := false }

/-- A `QVariant` as `HistoryModel::data` builds it: empty, a string, or a
`Sound*`. -/
inductive QVariant where
  | invalid
  | string (s : QString)
  | sound (p : SoundPtr)
deriving DecidableEq, Repr

/-- The values of the enumerators `TextRole` and `SoundRole`, which are declared
in `historymodel.h`. -/
structure Roles where
  TextRole : Int
  SoundRole : Int
deriving DecidableEq, Repr

section History

variable {P : Type}

/-- The state with an empty history and the `Sound` objects `h0` of the
caller already on the heap. -/
def State.init (h0 : List P) : State P :=
  { sounds := h0, mItems := [], signals := [] }

/-- Embedding of `HistoryModel::rowCount`. -/
def rowCount (s : State P) (parent : QModelIndex) : Int :=
  if parent.isValid then 0 else (s.mItems.length : Int)

/-- Embedding of `HistoryModel::data`. The result is `none` when
`mItems.at(row)` would be evaluated at a row outside the list. -/
def data (R : Roles) (s : State P) (index : QModelIndex) (role : Int) : Option QVariant :=
  let row := index.row
  if row < 0 ∨ row ≥ (s.mItems.length : Int) then
    some QVariant.invalid
  else
    match s.mItems[row.toNat]? with
    | none => none
    | some info =>
      if role = R.TextRole then some (QVariant.string info.text)
      else if role = R.SoundRole then some (QVariant.sound info.sound)
      else some QVariant.invalid

/-- Modelled from the spec: `Sound::fromOther` (defined in `sound.cpp`), which
makes the object at `self` an "owned-parameter-copy" of the object at `other`:
the parameter values of `other` are written into `self`. -/
def fromOther [Inhabited P] (heap : List P) (self other : SoundPtr) : List P :=
  heap.set self (heap.getD other default)

/-- Embedding of `HistoryModel::append`. -/
def append [Inhabited P] (s : State P) (text : QString) (sound : SoundPtr) : State P :=
  if h : s.mItems.length < HISTORY_MAX_SIZE then
    -- info.sound = new Sound(this);
    let heap1 := s.sounds ++ [default]
    let info : SoundInfo := { text := [], sound := s.sounds.length }
    -- info.text = text; info.sound->fromOther(sound);
    let info := { info with text := text }
    let heap2 := fromOther heap1 info.sound sound
    -- beginInsertRows(QModelIndex(), 0, 0); mItems.prepend(info);
    { sounds := heap2
      mItems := info :: s.mItems
      signals := s.signals ++ [Signal.rowsInserted 0 0] }
  else
    -- beginRemoveRows(QModelIndex(), length - 1, length - 1); info = mItems.takeLast();
    let last : Int := (s.mItems.length : Int) - 1
    let info : SoundInfo := s.mItems.getLast (fun h0 => h (by rw [h0]; decide))
    let items1 := s.mItems.dropLast
    -- info.text = text; info.sound->fromOther(sound);
    let info := { info with text := text }
    let heap2 := fromOther s.sounds info.sound sound
    -- beginInsertRows(QModelIndex(), 0, 0); mItems.prepend(info);
    { sounds := heap2
      mItems := info :: items1
      signals := s.signals ++ [Signal.rowsRemoved last last, Signal.rowsInserted 0 0] }

/-- What happens between the empty history and the state looked at: calls of
`HistoryModel::append`, and the caller changing the parameter values of a
`Sound` object in between. -/
inductive Call (P : Type) where
  | append (text : QString) (sound : SoundPtr)
  | edit (sound : SoundPtr) (params : P)

/-- One call. -/
def step [Inhabited P] (s : State P) : Call P → State P
  | .append text sound => append s text sound
  | .edit sound params => { s with sounds := s.sounds.set sound params }

/-- A sequence of calls, first to last. -/
def run [Inhabited P] (s : State P) : List (Call P) → State P
  | [] => s
  | c :: cs => run (step s c) cs

/-- The number of `append` calls in a sequence. -/
def appendCount : List (Call P) → Nat
  | [] => 0
  | .append _ _ :: cs => appendCount cs + 1
  | .edit _ _ :: cs => appendCount cs

/-- For each `append (label, sound)` of the sequence, in call order, the label
and the parameter values `sound` had when the call was made. -/
def appended [Inhabited P] (s : State P) : List (Call P) → List (QString × P)
  | [] => []
  | .append text sound :: cs =>
      (text, s.sounds.getD sound default) :: appended (step s (.append text sound)) cs
  | .edit sound params :: cs => appended (step s (.edit sound params)) cs

/-- The `Sound` objects the rows point to, row 0 first. -/
def owned (s : State P) : List SoundPtr := s.mItems.map SoundInfo.sound

/-- The caller edits only `Sound` objects that are not held by a row of the
history at that time. -/
def callerEditsOwnSounds [Inhabited P] (s : State P) : List (Call P) → Bool
  | [] => true
  | .append text sound :: cs => callerEditsOwnSounds (step s (.append text sound)) cs
  | .edit sound params :: cs =>
      !(owned s).contains sound && callerEditsOwnSounds (step s (.edit sound params)) cs

/-- What row `i` holds: the label, and the parameter values of the `Sound`
object the row points to. -/
def row [Inhabited P] (s : State P) (i : Nat) : Option (QString × P) :=
  (s.mItems[i]?).map (fun info => (info.text, s.sounds.getD info.sound default))

/-- All rows, row 0 first. -/
def rows [Inhabited P] (s : State P) : List (QString × P) :=
  s.mItems.map (fun info => (info.text, s.sounds.getD info.sound default))

/-- The invariant of the reachable states: every row points to a live `Sound`
object, no two rows point to the same one, and there are at most
`HISTORY_MAX_SIZE` rows. -/
structure Inv (s : State P) : Prop where
  alive : ∀ a ∈ owned s, a < s.sounds.length
  distinct : (owned s).Nodup
  bounded : s.mItems.length ≤ HISTORY_MAX_SIZE

/-- A small run used to instantiate the statements: two appends of the caller's
`Sound` object 0, which the caller edits in between. -/
def sampleCalls : List (Call Nat) :=
  [.append ['a'] 0, .edit 0 9, .append ['b'] 0]

/-- Thirty appends of the caller's `Sound` object 0: they fill the history. -/
def fillCalls : List (Call Nat) :=
  List.replicate 30 (.append ['f'] 0)

end History

/-! ## Data model of `main.cpp` -/

/-- Embedding of `QString::split(sep)` with the default `Qt::KeepEmptyParts`:
the pieces between the occurrences of `sep`; a string without `sep` is its only
piece. -/
def QString_split (s : QString) (sep : Char) : List QString :=
  s.splitOn sep

/-- Embedding of `QString::section(sep, start, end)` with the default flags,
after the Qt implementation: split at `sep`, count a negative `start` or `end`
from the right, and join the sections `start` to `end` with `sep`; the empty
string when the range is empty. -/
def QString_section (s : QString) (sep : Char) (start stop : Int) : QString :=
  let sections := QString_split s sep
  let sectionsSize : Int := (sections.length : Int)
  let start := if start < 0 then start + sectionsSize else start
  let stop := if stop < 0 then stop + sectionsSize else stop
  if start ≥ sectionsSize ∨ stop < 0 ∨ start > stop then
    []
  else
    [sep].intercalate ((sections.take (stop.toNat + 1)).drop start.toNat)

/-- The Qt calls of `main.cpp` whose results the repository does not fix, over
a type `U` of `QUrl` values. -/
structure Qt (U : Type) where
  /-- Result of `QUrl()`. -/
  emptyUrl : U
  /-- Result of `QUrl::fromUserInput(text, QDir::currentPath(), QUrl::AssumeLocalFile)`. -/
  fromUserInput : QString → U
  /-- Result of `QUrl::isEmpty()`. -/
  isEmpty : U → Bool
  /-- Result of `QUrl::path()`. -/
  path : U → QString
  /-- Result of `QUrl::fromLocalFile(path)`. -/
  fromLocalFile : QString → U
  /-- Result of `QString::toInt()`. -/
  toInt : QString → Int

/-- A `QCommandLineParser` after `parser.process(*qApp)`. -/
structure QCommandLineParser where
  positionalArguments : List QString
  isSet : String → Bool
  value : String → QString

/-- The record `struct Arguments`. -/
structure Arguments (U : Type) where
  url : U
  export_ : Bool
  outputUrl : U
  outputBits : Option Int
  outputFrequency : Option Int

/-- Embedding of `Arguments::parse`. -/
def Arguments.parse {U : Type} (qt : Qt U) (parser : QCommandLineParser) :
    Option (Arguments U) :=
  match parser.positionalArguments with
  | [] => none
  | first :: _ =>
    let inst : Arguments U :=
      { url := qt.fromUserInput first
        export_ := parser.isSet "export"
        outputUrl := qt.emptyUrl
        outputBits := none
        outputFrequency := none }
    if !inst.export_ then
      some inst
    else
      let outputUrl := qt.fromUserInput (parser.value "output")
      let outputUrl :=
        if qt.isEmpty outputUrl then
          qt.fromLocalFile (QString_section (qt.path inst.url) '.' 0 (-2) ++ ['.', 'w', 'a', 'v'])
        else outputUrl
      let outputBits := qt.toInt (parser.value "bits")
      let outputFrequency := qt.toInt (parser.value "samplerate")
      some { inst with
        outputUrl := outputUrl
        outputBits := if outputBits > 0 then some outputBits else none
        outputFrequency := if outputFrequency > 0 then some outputFrequency else none }

/-- What `main` does to the outside, in order. -/
inductive Effect (U : Type) where
  /-- Call of `SoundIO::load(&sound, url)`. -/
  | loadSound (url : U)
  /-- Call of `saver.save(&sound, url)`, with the bits and frequency set on the
  saver before (`none`: left as the saver was constructed). -/
  | saveWav (bits frequency : Option Int) (url : U)
  /-- Call of `qCritical(...)`. -/
  | critical
  /-- Call of `engine.load` on the main QML file. -/
  | engineLoad
  /-- Call of `loadInitialSound(&engine, url)`. -/
  | loadInitialSound (url : U)
  /-- Call of `app.exec()`. -/
  | exec
deriving DecidableEq, Repr

/-- The collaborators of `main.cpp` defined elsewhere in the repository, over a
type `S` of loaded sounds: whether `SoundIO::load` succeeds on a URL (and what
it loads), and whether `WavSaver::save` succeeds. -/
structure Collaborators (U S : Type) where
  load : U → Option S
  save : S → Option Int → Option Int → U → Bool

/-- Embedding of `exportSound`: the exit status and the effects. -/
def exportSound {U S : Type} (co : Collaborators U S) (args : Arguments U) :
    Int × List (Effect U) :=
  match co.load args.url with
  | none => (1, [Effect.loadSound args.url, Effect.critical])
  | some sound =>
    if !co.save sound args.outputBits args.outputFrequency args.outputUrl then
      (1, [Effect.loadSound args.url,
           Effect.saveWav args.outputBits args.outputFrequency args.outputUrl,
           Effect.critical])
    else
      (0, [Effect.loadSound args.url,
           Effect.saveWav args.outputBits args.outputFrequency args.outputUrl])

/-- Embedding of `main`, from `Arguments::parse(parser)` on, that is once
`parser.process(*qApp)` has returned: the value returned and the effects.
`execStatus` is what `app.exec()` returns. -/
def main {U S : Type} (qt : Qt U) (co : Collaborators U S) (execStatus : Int)
    (parser : QCommandLineParser) : Int × List (Effect U) :=
  let maybeArgs := Arguments.parse qt parser
  match maybeArgs with
  | some args =>
    if args.export_ then
      exportSound co args
    else
      (execStatus, [Effect.engineLoad, Effect.loadInitialSound args.url, Effect.exec])
  | none => (execStatus, [Effect.engineLoad, Effect.exec])

/-- A Qt stand-in for concrete runs: a URL is its text, and it is its own
path. -/
def plainQt : Qt QString :=
  { emptyUrl := []
    fromUserInput := fun t => t
    isEmpty := fun u => u.isEmpty
    path := fun u => u
    fromLocalFile := fun t => t
    toInt := fun _ => 0 }

/-- Collaborators for concrete runs: loading and saving succeed. -/
def plainCollaborators : Collaborators QString Unit :=
  { load := fun _ => some ()
    save := fun _ _ _ _ => true }

/-- The command line `sfxr-qt --export`. -/
def exportOnly : QCommandLineParser :=
  { positionalArguments := []
    isSet := fun name => name == "export"
    value := fun _ => [] }

/-- The command line `sfxr-qt --export my.snd.sfxr`. -/
def exportFile : QCommandLineParser :=
  { positionalArguments := [['m', 'y', '.', 's', 'n', 'd', '.', 's', 'f', 'x', 'r']]
    isSet := fun name => name == "export"
    value := fun _ => [] }

/-! ## Properties of the history list -/

section HistoryProofs

variable {P : Type}

/-- In the eviction branch of `append` the list is not empty. -/
theorem mItems_ne_nil_of_full {s : State P} (h : ¬ s.mItems.length < HISTORY_MAX_SIZE) :
    s.mItems ≠ [] := by
  intro h0
  apply h
  rw [h0]
  decide


/-- Reading the cell just written. -/
theorem getD_set_self [Inhabited P] (l : List P) (a : Nat) (v : P) (h : a < l.length) :
    (l.set a v).getD a default = v := by
  simp [List.getD_eq_getElem?_getD, List.getElem?_set, h]

/-- Reading another cell than the one written. -/
theorem getD_set_ne [Inhabited P] (l : List P) (a b : Nat) (v : P) (h : a ≠ b) :
    (l.set a v).getD b default = l.getD b default := by
  simp [List.getD_eq_getElem?_getD, List.getElem?_set, h]

/-- Allocation leaves the cells that exist as they are. -/
theorem getD_append_left [Inhabited P] (l : List P) (x : P) (b : Nat) (h : b < l.length) :
    (l ++ [x]).getD b default = l.getD b default := by
  simp [List.getD_eq_getElem?_getD, List.getElem?_append_left, h]

/-- A read of the extended heap, whatever the address. -/
theorem getD_append_default [Inhabited P] (l : List P) (b : Nat) :
    (l ++ [default]).getD b default = l.getD b default := by
  by_cases h : b < l.length
  · exact getD_append_left l default b h
  · have h1 : l.length ≤ b := Nat.le_of_not_lt h
    rcases Nat.eq_or_lt_of_le h1 with h2 | h2
    · subst h2
      simp [List.getD_eq_getElem?_getD]
    · have h3 : (l ++ [default]).length ≤ b := by simp; omega
      simp [List.getD_eq_getElem?_getD, List.getElem?_eq_none h3, List.getElem?_eq_none h1]

theorem append_of_lt [Inhabited P] (s : State P) (text : QString) (sound : SoundPtr)
    (h : s.mItems.length < HISTORY_MAX_SIZE) :
    append s text sound =
      { sounds := fromOther (s.sounds ++ [default]) s.sounds.length sound
        mItems := { text := text, sound := s.sounds.length } :: s.mItems
        signals := s.signals ++ [Signal.rowsInserted 0 0] } := by
  unfold append
  rw [dif_pos h]

theorem append_of_full [Inhabited P] (s : State P) (text : QString) (sound : SoundPtr)
    (h : ¬ s.mItems.length < HISTORY_MAX_SIZE) :
    append s text sound =
      { sounds := fromOther s.sounds (s.mItems.getLast (mItems_ne_nil_of_full h)).sound sound
        mItems := { text := text, sound := (s.mItems.getLast (mItems_ne_nil_of_full h)).sound }
                    :: s.mItems.dropLast
        signals := s.signals ++
          [Signal.rowsRemoved ((s.mItems.length : Int) - 1) ((s.mItems.length : Int) - 1),
           Signal.rowsInserted 0 0] } := by
  unfold append
  rw [dif_neg h]

theorem inv_init (h0 : List P) : Inv (State.init h0) := by
  refine ⟨?_, ?_, ?_⟩ <;> simp [State.init, owned]

/-- The owned objects of a full list: the retained ones, then the evicted one. -/
theorem owned_full (s : State P) (hne : s.mItems ≠ []) :
    owned s = s.mItems.dropLast.map SoundInfo.sound ++ [(s.mItems.getLast hne).sound] := by
  unfold owned
  conv_lhs => rw [← List.dropLast_append_getLast hne]
  simp

theorem inv_append [Inhabited P] (s : State P) (text : QString) (sound : SoundPtr) (hs : Inv s) :
    Inv (append s text sound) := by
  by_cases h : s.mItems.length < HISTORY_MAX_SIZE
  · rw [append_of_lt s text sound h]
    refine ⟨?_, ?_, ?_⟩
    · intro a ha
      simp only [owned, List.map_cons, List.mem_cons] at ha
      simp only [fromOther, List.length_set, List.length_append, List.length_singleton]
      rcases ha with ha | ha
      · rw [ha]
        exact Nat.lt_succ_self _
      · exact Nat.lt_succ_of_lt (hs.alive a ha)
    · simp only [owned, List.map_cons, List.nodup_cons]
      refine ⟨?_, hs.distinct⟩
      intro hmem
      exact Nat.lt_irrefl _ (hs.alive _ hmem)
    · simp only [List.length_cons]
      exact h
  · have hne := mItems_ne_nil_of_full h
    have hown := owned_full s hne
    have hd := hs.distinct
    rw [hown] at hd
    rw [append_of_full s text sound h]
    refine ⟨?_, ?_, ?_⟩
    · intro a ha
      simp only [owned, List.map_cons, List.mem_cons] at ha
      simp only [fromOther, List.length_set]
      apply hs.alive
      rw [hown]
      rcases ha with ha | ha
      · rw [ha]
        exact List.mem_append_right _ (List.mem_singleton_self _)
      · exact List.mem_append_left _ ha
    · simp only [owned, List.map_cons, List.nodup_cons]
      rw [List.nodup_append] at hd
      refine ⟨?_, hd.1⟩
      intro hmem
      exact hd.2.2 hmem (List.mem_singleton_self _)
    · have hb := hs.bounded
      simp only [List.length_cons, List.length_dropLast]
      have hpos : 0 < s.mItems.length := List.length_pos.mpr hne
      omega

theorem inv_step [Inhabited P] (s : State P) (c : Call P) (hs : Inv s) : Inv (step s c) := by
  cases c with
  | append text sound => exact inv_append s text sound hs
  | edit sound params =>
    refine ⟨?_, hs.distinct, hs.bounded⟩
    intro a ha
    simp only [step, List.length_set]
    exact hs.alive a ha

theorem inv_run [Inhabited P] (cs : List (Call P)) : ∀ s : State P, Inv s → Inv (run s cs) := by
  induction cs with
  | nil => intro s hs; exact hs
  | cons c cs ih => intro s hs; exact ih _ (inv_step s c hs)

/-- In `append`, `fromOther` writes to the `Sound` object of the new row 0 only:
every other address reads as before. -/
theorem sounds_append_of_ne [Inhabited P] (s : State P) (text : QString)
    (sound a : SoundPtr)
    (ha : ∀ p ∈ (owned (append s text sound)).head?, p ≠ a) :
    (append s text sound).sounds.getD a default = s.sounds.getD a default := by
  by_cases h : s.mItems.length < HISTORY_MAX_SIZE
  · rw [append_of_lt s text sound h] at ha ⊢
    simp only [owned, List.map_cons, List.head?_cons, Option.mem_def, Option.some.injEq,
      forall_eq'] at ha
    simp only [fromOther]
    rw [getD_set_ne _ _ _ _ ha, getD_append_default]
  · rw [append_of_full s text sound h] at ha ⊢
    simp only [owned, List.map_cons, List.head?_cons, Option.mem_def, Option.some.injEq,
      forall_eq'] at ha
    simp only [fromOther]
    rw [getD_set_ne _ _ _ _ ha]

/-- After `append`, the `Sound` object of row 0 holds the parameter values the
argument had before the call. -/
theorem sounds_append_head [Inhabited P] (s : State P) (text : QString) (sound : SoundPtr)
    (hs : Inv s) :
    ∀ p ∈ (owned (append s text sound)).head?,
      (append s text sound).sounds.getD p default = s.sounds.getD sound default := by
  by_cases h : s.mItems.length < HISTORY_MAX_SIZE
  · rw [append_of_lt s text sound h]
    simp only [owned, List.map_cons, List.head?_cons, Option.mem_def, Option.some.injEq,
      forall_eq', fromOther]
    rw [getD_set_self _ _ _ (by simp), getD_append_default]
  · have hne := mItems_ne_nil_of_full h
    rw [append_of_full s text sound h]
    simp only [owned, List.map_cons, List.head?_cons, Option.mem_def, Option.some.injEq,
      forall_eq', fromOther]
    apply getD_set_self
    apply hs.alive
    rw [owned_full s hne]
    exact List.mem_append_right _ (List.mem_singleton_self _)

/-- The rows after `append`: the new pair in front of the former rows, cut at
`HISTORY_MAX_SIZE`. -/
theorem rows_append [Inhabited P] (s : State P) (text : QString) (sound : SoundPtr) (hs : Inv s) :
    rows (append s text sound)
      = ((text, s.sounds.getD sound default) :: rows s).take HISTORY_MAX_SIZE := by
  have hhead := sounds_append_head s text sound hs
  have hframe := sounds_append_of_ne s text sound
  have hinv := (inv_append s text sound hs).distinct
  by_cases h : s.mItems.length < HISTORY_MAX_SIZE
  · rw [append_of_lt s text sound h] at hhead hframe hinv ⊢
    simp only [owned, List.map_cons, List.head?_cons, Option.mem_def, Option.some.injEq,
      forall_eq', List.nodup_cons] at hhead hframe hinv
    have hlen : ((text, s.sounds.getD sound default) :: rows s).length ≤ HISTORY_MAX_SIZE := by
      simp only [rows, List.length_cons, List.length_map]
      exact h
    rw [List.take_of_length_le hlen]
    simp only [rows, List.map_cons, hhead, List.cons.injEq, true_and]
    apply List.map_congr_left
    intro info hinfo
    rw [hframe]
    intro heq
    apply hinv.1
    rw [heq]
    exact List.mem_map_of_mem _ hinfo
  · have hne := mItems_ne_nil_of_full h
    have hb := hs.bounded
    have hlen : s.mItems.length = HISTORY_MAX_SIZE := by omega
    rw [append_of_full s text sound h] at hhead hframe hinv ⊢
    simp only [owned, List.map_cons, List.head?_cons, Option.mem_def, Option.some.injEq,
      forall_eq', List.nodup_cons] at hhead hframe hinv
    have htake : ((text, s.sounds.getD sound default) :: rows s).take HISTORY_MAX_SIZE
        = (text, s.sounds.getD sound default) :: (rows s).dropLast := by
      rw [List.dropLast_eq_take]
      simp only [rows, List.length_map, hlen]
      rfl
    rw [htake]
    simp only [rows, List.map_cons, hhead, List.cons.injEq, true_and]
    rw [← List.map_dropLast]
    apply List.map_congr_left
    intro info hinfo
    rw [hframe]
    intro heq
    apply hinv.1
    rw [heq]
    exact List.mem_map_of_mem _ hinfo

/-- An edit of a `Sound` object no row points to leaves the rows as they are. -/
theorem rows_edit [Inhabited P] (s : State P) (sound : SoundPtr) (params : P)
    (h : sound ∉ owned s) :
    rows (step s (.edit sound params)) = rows s := by
  simp only [rows, step]
  apply List.map_congr_left
  intro info hinfo
  rw [getD_set_ne]
  intro heq
  apply h
  rw [heq]
  exact List.mem_map_of_mem _ hinfo

/-- Cutting before and after prepending is cutting after. -/
theorem take_append_take {α : Type} (n : Nat) (l m : List α) :
    (l ++ m.take n).take n = (l ++ m).take n := by
  rw [List.take_append_eq_append_take, List.take_append_eq_append_take, List.take_take]
  congr 2
  omega

/-- The rows after a sequence of calls: the appended pairs, latest first, in
front of the rows there were, cut at `HISTORY_MAX_SIZE`. -/
theorem rows_run [Inhabited P] (cs : List (Call P)) :
    ∀ s : State P, Inv s → callerEditsOwnSounds s cs = true →
    rows (run s cs) = ((appended s cs).reverse ++ rows s).take HISTORY_MAX_SIZE := by
  induction cs with
  | nil =>
    intro s hs _
    simp only [run, appended, List.reverse_nil, List.nil_append]
    rw [List.take_of_length_le]
    simp only [rows, List.length_map]
    exact hs.bounded
  | cons c cs ih =>
    intro s hs hadm
    cases c with
    | append text sound =>
      simp only [callerEditsOwnSounds] at hadm
      simp only [run, appended, List.reverse_cons, List.append_assoc, List.singleton_append]
      rw [ih _ (inv_step s _ hs) hadm]
      simp only [step]
      rw [rows_append s text sound hs, take_append_take]
    | edit sound params =>
      simp only [callerEditsOwnSounds, Bool.and_eq_true, Bool.not_eq_true',
        List.contains_eq_any_beq, List.any_eq_false, beq_iff_eq] at hadm
      simp only [run, appended]
      rw [ih _ (inv_step s _ hs) hadm.2]
      rw [rows_edit s sound params]
      intro hmem
      exact hadm.1 sound hmem rfl

theorem length_run [Inhabited P] (cs : List (Call P)) : ∀ s : State P, Inv s →
    (run s cs).mItems.length = min (s.mItems.length + appendCount cs) HISTORY_MAX_SIZE := by
  induction cs with
  | nil =>
    intro s hs
    have := hs.bounded
    simp only [run, appendCount]
    omega
  | cons c cs ih =>
    intro s hs
    cases c with
    | append text sound =>
      simp only [run, appendCount]
      rw [ih _ (inv_step s _ hs)]
      have hb := hs.bounded
      by_cases h : s.mItems.length < HISTORY_MAX_SIZE
      · simp only [step, append_of_lt s text sound h, List.length_cons]
        omega
      · have hne := mItems_ne_nil_of_full h
        have hpos : 0 < s.mItems.length := List.length_pos.mpr hne
        simp only [step, append_of_full s text sound h, List.length_cons, List.length_dropLast]
        omega
    | edit sound params =>
      simp only [run, appendCount]
      rw [ih _ (inv_step s _ hs)]
      simp only [step]

theorem length_appended [Inhabited P] (cs : List (Call P)) : ∀ s : State P,
    (appended s cs).length = appendCount cs := by
  induction cs with
  | nil => intro s; rfl
  | cons c cs ih =>
    intro s
    cases c with
    | append text sound => simp only [appended, appendCount, List.length_cons, ih]
    | edit sound params => simp only [appended, appendCount, ih]

theorem row_eq_rows_getElem? [Inhabited P] (s : State P) (i : Nat) : row s i = (rows s)[i]? := by
  simp only [row, rows, List.getElem?_map]

/-- C1. After any sequence of `append` calls on an empty history (the caller
being free to edit its own `Sound` objects in between), the rows are
most-recent-first: with `n` the number of appends, every row `i < min n 30`
holds the label of append number `n - i` and the parameter values its `sound`
argument had when that append was called. In particular row 0 after
`append (text, sound)` holds `text` and the values `sound` had. -/
theorem C1_rows_most_recent_first [Inhabited P] (h0 : List P) (cs : List (Call P))
    (hcs : callerEditsOwnSounds (State.init h0) cs = true) :
    (appended (State.init h0) cs).length = appendCount cs
    ∧ (∀ i, i < min (appendCount cs) HISTORY_MAX_SIZE →
        (row (run (State.init h0) cs) i).isSome = true
        ∧ row (run (State.init h0) cs) i
            = (appended (State.init h0) cs)[appendCount cs - 1 - i]?)
    ∧ (∀ text sound, row (append (run (State.init h0) cs) text sound) 0
        = some (text, (run (State.init h0) cs).sounds.getD sound default)) := by
  have hlen := length_appended cs (State.init h0)
  have hrows := rows_run cs (State.init h0) (inv_init h0) hcs
  have hinv := inv_run cs (State.init h0) (inv_init h0)
  refine ⟨hlen, ?_, ?_⟩
  · intro i hi
    have hi1 : i < appendCount cs := lt_of_lt_of_le hi (Nat.min_le_left _ _)
    have hi2 : i < HISTORY_MAX_SIZE := lt_of_lt_of_le hi (Nat.min_le_right _ _)
    have hi3 : i < (appended (State.init h0) cs).reverse.length := by
      rw [List.length_reverse, hlen]
      exact hi1
    have hkey : row (run (State.init h0) cs) i
        = (appended (State.init h0) cs)[appendCount cs - 1 - i]? := by
      rw [row_eq_rows_getElem?, hrows]
      have hnil : rows (State.init h0) = [] := rfl
      rw [hnil, List.append_nil]
      rw [List.getElem?_take_of_lt hi2, List.getElem?_reverse (by rw [hlen]; exact hi1), hlen]
    refine ⟨?_, hkey⟩
    rw [hkey]
    have hlt : appendCount cs - 1 - i < (appended (State.init h0) cs).length := by
      rw [hlen]
      omega
    rw [List.getElem?_eq_getElem hlt]
    rfl
  · intro text sound
    rw [row_eq_rows_getElem?, rows_append _ text sound hinv]
    rw [List.getElem?_take_of_lt (by decide), List.getElem?_cons_zero]

theorem C1_rows_most_recent_first_witness :
    callerEditsOwnSounds (State.init [7]) sampleCalls = true
    ∧ row (run (State.init [7]) sampleCalls) 0 = some (['b'], 9)
    ∧ row (run (State.init [7]) sampleCalls) 1 = some (['a'], 7) := by
  have h := C1_rows_most_recent_first [7] sampleCalls (by decide)
  refine ⟨by decide, ?_, ?_⟩
  · rw [(h.2.1 0 (by decide)).2]
    decide
  · rw [(h.2.1 1 (by decide)).2]
    decide

/-- C2. In every state reached from the empty history, `rowCount` of the root
index is at most 30, and it is `min n 30` after `n` appends. -/
theorem C2_rowCount_bounded [Inhabited P] (h0 : List P) (cs : List (Call P)) :
    rowCount (run (State.init h0) cs) QModelIndex.root ≤ 30
    ∧ rowCount (run (State.init h0) cs) QModelIndex.root
        = ((min (appendCount cs) 30 : Nat) : Int) := by
  have hlen := length_run cs (State.init h0) (inv_init h0)
  simp only [State.init, List.length_nil, Nat.zero_add] at hlen
  have hroot : QModelIndex.root.isValid = false := by decide
  have hcount : rowCount (run (State.init h0) cs) QModelIndex.root
      = ((min (appendCount cs) 30 : Nat) : Int) := by
    simp only [rowCount, hroot, Bool.false_eq_true, if_false]
    rw [show State.init h0 = { sounds := h0, mItems := [], signals := [] } from rfl, hlen]
    rfl
  refine ⟨?_, hcount⟩
  rw [hcount]
  have : min (appendCount cs) 30 ≤ 30 := Nat.min_le_right _ _
  exact_mod_cast this

/-- C3. Eviction removes exactly the oldest entry, and only once the list is
full. In a reachable state with exactly 30 rows, `append` announces the removal
of row 29 only, keeps the retained rows in order behind the new one, keeps the
length at 30, and every former row `i < 29` is row `i + 1` afterwards, with the
same label, the same `Sound` object and the same parameter values. In a
reachable state with fewer than 30 rows, `append` announces no removal, the
length grows by one, and every former row `i` is row `i + 1` afterwards,
unchanged. -/
theorem C3_eviction [Inhabited P] (h0 : List P) (cs : List (Call P)) (text : QString)
    (sound : SoundPtr) :
    ((run (State.init h0) cs).mItems.length = 30 →
      (append (run (State.init h0) cs) text sound).mItems.length = 30
      ∧ (append (run (State.init h0) cs) text sound).mItems.tail
          = (run (State.init h0) cs).mItems.dropLast
      ∧ (append (run (State.init h0) cs) text sound).signals
          = (run (State.init h0) cs).signals
              ++ [Signal.rowsRemoved 29 29, Signal.rowsInserted 0 0]
      ∧ ∀ i, i < 29 →
          (row (run (State.init h0) cs) i).isSome = true
          ∧ (append (run (State.init h0) cs) text sound).mItems[i + 1]?
              = (run (State.init h0) cs).mItems[i]?
          ∧ row (append (run (State.init h0) cs) text sound) (i + 1)
              = row (run (State.init h0) cs) i)
    ∧ ((run (State.init h0) cs).mItems.length < 30 →
      (append (run (State.init h0) cs) text sound).mItems.length
          = (run (State.init h0) cs).mItems.length + 1
      ∧ (append (run (State.init h0) cs) text sound).mItems.tail
          = (run (State.init h0) cs).mItems
      ∧ (append (run (State.init h0) cs) text sound).signals
          = (run (State.init h0) cs).signals ++ [Signal.rowsInserted 0 0]
      ∧ ∀ i, i < (run (State.init h0) cs).mItems.length →
          (row (run (State.init h0) cs) i).isSome = true
          ∧ (append (run (State.init h0) cs) text sound).mItems[i + 1]?
              = (run (State.init h0) cs).mItems[i]?
          ∧ row (append (run (State.init h0) cs) text sound) (i + 1)
              = row (run (State.init h0) cs) i) := by
  have hinv := inv_run cs (State.init h0) (inv_init h0)
  generalize run (State.init h0) cs = s at hinv ⊢
  have hrows := rows_append s text sound hinv
  have hsome : ∀ i, i < s.mItems.length → (row s i).isSome = true := by
    intro i hi
    simp only [row, List.getElem?_eq_getElem hi, Option.map_some', Option.isSome_some]
  constructor
  · intro hlen
    have hfull : ¬ s.mItems.length < HISTORY_MAX_SIZE := by
      rw [hlen]
      decide
    have hrow : ∀ i, i < 29 → row (append s text sound) (i + 1) = row s i := by
      intro i hi
      rw [row_eq_rows_getElem?, row_eq_rows_getElem?, hrows]
      rw [List.getElem?_take_of_lt (show i + 1 < HISTORY_MAX_SIZE by
        unfold HISTORY_MAX_SIZE; omega), List.getElem?_cons_succ]
    rw [append_of_full s text sound hfull] at hrow ⊢
    refine ⟨?_, rfl, ?_, ?_⟩
    · simp only [List.length_cons, List.length_dropLast, hlen]
    · simp only [hlen]
      rfl
    · intro i hi
      refine ⟨hsome i (by omega), ?_, hrow i hi⟩
      rw [List.getElem?_cons_succ, List.dropLast_eq_take, hlen]
      exact List.getElem?_take_of_lt (by omega)
  · intro hlen
    have hlt : s.mItems.length < HISTORY_MAX_SIZE := hlen
    have hrow : ∀ i, i < s.mItems.length → row (append s text sound) (i + 1) = row s i := by
      intro i hi
      rw [row_eq_rows_getElem?, row_eq_rows_getElem?, hrows]
      rw [List.getElem?_take_of_lt (show i + 1 < HISTORY_MAX_SIZE by
        unfold HISTORY_MAX_SIZE; omega), List.getElem?_cons_succ]
    rw [append_of_lt s text sound hlt] at hrow ⊢
    refine ⟨rfl, rfl, rfl, ?_⟩
    intro i hi
    exact ⟨hsome i hi, List.getElem?_cons_succ, hrow i hi⟩

set_option maxRecDepth 100000 in
theorem C3_eviction_witness :
    (run (State.init [5]) fillCalls).mItems.length = 30
    ∧ (append (run (State.init [5]) fillCalls) ['x'] 0).mItems.length = 30
    ∧ (run (State.init [5]) sampleCalls).mItems.length < 30
    ∧ (append (run (State.init [5]) sampleCalls) ['x'] 0).mItems.length = 3 :=
  ⟨by decide,
   ((C3_eviction [5] fillCalls ['x'] 0).1 (by decide)).1,
   by decide,
   ((C3_eviction [5] sampleCalls ['x'] 0).2 (by decide)).1⟩

/-- C4. In every state reached from the empty history no two rows point to the
same `Sound` object. Once the list is full, `append` gives the new row 0 the
`Sound` object of the evicted last row; and whatever the state of the list,
the `Sound` object of every row behind the new row 0 holds after `append` the
parameter values it held before. -/
theorem C4_rows_own_their_sound [Inhabited P] (h0 : List P) (cs : List (Call P)) :
    (owned (run (State.init h0) cs)).Nodup
    ∧ ∀ text sound,
        (owned (append (run (State.init h0) cs) text sound)).Nodup
        ∧ ((run (State.init h0) cs).mItems.length = 30 →
            (owned (append (run (State.init h0) cs) text sound)).head?
              = (owned (run (State.init h0) cs)).getLast?)
        ∧ (owned (append (run (State.init h0) cs) text sound)).tail
            = (owned (run (State.init h0) cs)).take 29
        ∧ ∀ a ∈ (owned (append (run (State.init h0) cs) text sound)).tail,
            (append (run (State.init h0) cs) text sound).sounds.getD a default
              = (run (State.init h0) cs).sounds.getD a default := by
  have hinv := inv_run cs (State.init h0) (inv_init h0)
  generalize run (State.init h0) cs = s at hinv ⊢
  refine ⟨hinv.distinct, ?_⟩
  intro text sound
  have hinv2 := inv_append s text sound hinv
  have hframe := sounds_append_of_ne s text sound
  refine ⟨hinv2.distinct, ?_, ?_, ?_⟩
  · intro hlen
    have hfull : ¬ s.mItems.length < HISTORY_MAX_SIZE := by
      rw [hlen]
      decide
    have hne := mItems_ne_nil_of_full hfull
    rw [append_of_full s text sound hfull, owned_full s hne]
    simp only [owned, List.map_cons, List.head?_cons]
    rw [List.getLast?_concat]
  · by_cases h : s.mItems.length < HISTORY_MAX_SIZE
    · rw [append_of_lt s text sound h]
      simp only [owned, List.map_cons, List.tail_cons]
      rw [List.take_of_length_le]
      simp only [List.length_map]
      unfold HISTORY_MAX_SIZE at h
      omega
    · have hb := hinv.bounded
      have hlen : s.mItems.length = 30 := by
        unfold HISTORY_MAX_SIZE at h hb
        omega
      rw [append_of_full s text sound h]
      simp only [owned, List.map_cons, List.tail_cons, List.map_dropLast]
      rw [List.dropLast_eq_take, List.length_map, hlen]
  · intro a ha
    apply hframe
    intro p hp heq
    have hd := hinv2.distinct
    cases hown : owned (append s text sound) with
    | nil =>
      rw [hown] at ha
      simp at ha
    | cons x xs =>
      rw [hown] at ha hp hd
      simp only [List.head?_cons, Option.mem_def, Option.some.injEq] at hp
      simp only [List.tail_cons] at ha
      rw [List.nodup_cons] at hd
      apply hd.1
      rw [hp, heq]
      exact ha

/-- C8. `data` is defined on every index and role. For a row below 0 or at or
above the number of entries it returns an empty `QVariant`, without reading the
list. For a row in range, holding the entry `info`, it returns `info.text` for
`TextRole`, `info.sound` for `SoundRole`, and an empty `QVariant` for every
other role. `rowCount` is the number of entries for an invalid parent (the root
index among them) and 0 for a valid parent. -/
theorem C8_data_and_rowCount (R : Roles) (hR : R.TextRole ≠ R.SoundRole)
    (s : State P) (index : QModelIndex) (role : Int) :
    ((index.row < 0 ∨ index.row ≥ (s.mItems.length : Int)) →
        data R s index role = some QVariant.invalid)
    ∧ ((0 ≤ index.row ∧ index.row < (s.mItems.length : Int)) →
        ∃ info, s.mItems[index.row.toNat]? = some info
          ∧ data R s index R.TextRole = some (QVariant.string info.text)
          ∧ data R s index R.SoundRole = some (QVariant.sound info.sound)
          ∧ (role ≠ R.TextRole → role ≠ R.SoundRole →
              data R s index role = some QVariant.invalid))
    ∧ (∀ parent : QModelIndex, parent.isValid = false →
        rowCount s parent = (s.mItems.length : Int))
    ∧ rowCount s QModelIndex.root = (s.mItems.length : Int)
    ∧ (∀ parent : QModelIndex, parent.isValid = true → rowCount s parent = 0) := by
  refine ⟨?_, ?_, ?_, ?_, ?_⟩
  · intro h
    simp only [data, h, if_true]
  · intro h
    have hlt : index.row.toNat < s.mItems.length := by omega
    have hcond : ¬ (index.row < 0 ∨ index.row ≥ (s.mItems.length : Int)) := by omega
    refine ⟨s.mItems[index.row.toNat], List.getElem?_eq_getElem hlt, ?_, ?_, ?_⟩
    · simp only [data, hcond, if_false, List.getElem?_eq_getElem hlt, if_true]
    · simp only [data, hcond, if_false, List.getElem?_eq_getElem hlt, hR.symm, if_true]
    · intro h1 h2
      simp only [data, hcond, if_false, List.getElem?_eq_getElem hlt, h1, h2]
  · intro parent hp
    simp only [rowCount, hp, Bool.false_eq_true, if_false]
  · rfl
  · intro parent hp
    simp only [rowCount, hp, if_true]

theorem C8_data_and_rowCount_witness :
    (256 : Int) ≠ 257
    ∧ data { TextRole := 256, SoundRole := 257 } (run (State.init [5]) sampleCalls)
        { row := 1, column := 0, hasModel := true } 257 = some (QVariant.sound 1)
    ∧ data { TextRole := 256, SoundRole := 257 } (run (State.init [5]) sampleCalls)
        { row := 2, column := 0, hasModel := true } 257 = some QVariant.invalid := by
  have h := C8_data_and_rowCount { TextRole := 256, SoundRole := 257 } (by decide)
    (run (State.init [5]) sampleCalls)
  refine ⟨by decide, ?_, ?_⟩
  · obtain ⟨info, h1, _, h3, _⟩ := (h { row := 1, column := 0, hasModel := true } 257).2.1
      (by decide)
    rw [h3]
    have h5 : (run (State.init [5]) sampleCalls).mItems[1]? = some { text := ['a'], sound := 1 } :=
      by decide
    rw [Option.some.inj (h1.symm.trans h5)]
  · exact (h { row := 2, column := 0, hasModel := true } 257).1 (by decide)

end HistoryProofs

/-! ## Properties of `main.cpp` -/

section MainProofs

theorem splitOn_append_sep (sep : Char) (a b : List Char) :
    (a ++ sep :: b).splitOn sep = a.splitOn sep ++ b.splitOn sep := by
  induction a with
  | nil =>
    simp only [List.nil_append, List.splitOn, List.splitOnP_cons, beq_self_eq_true, if_true,
      List.splitOnP_nil, List.singleton_append]
  | cons c a ih =>
    simp only [List.splitOn] at ih ⊢
    simp only [List.cons_append, List.splitOnP_cons]
    by_cases hc : (c == sep) = true
    · simp only [hc, if_true, ih, List.cons_append]
    · simp only [hc, if_false, ih, Bool.false_eq_true]
      cases hsplit : List.splitOnP (fun x => x == sep) a with
      | nil => exact absurd hsplit (List.splitOnP_ne_nil _ _)
      | cons hd tl => rfl

theorem splitOn_of_not_mem (sep : Char) (b : List Char) (h : sep ∉ b) :
    b.splitOn sep = [b] := by
  apply List.splitOnP_eq_single
  intro x hx hsep
  rw [beq_iff_eq] at hsep
  exact h (hsep ▸ hx)

/-- What `section(sep, 0, -2)` computes from `n + 1` sections. -/
theorem section_eq (sep : Char) (p : QString) (n : Nat)
    (hn : (p.splitOn sep).length = n + 1) :
    QString_section p sep 0 (-2)
      = if n = 0 then [] else [sep].intercalate ((p.splitOn sep).take n) := by
  unfold QString_section QString_split
  simp only [hn, lt_self_iff_false, if_false, show (-2 : Int) < 0 by decide, if_true,
    Int.toNat_zero, List.drop_zero]
  by_cases h0 : n = 0
  · subst h0
    simp
  · have hcond : ¬ ((0 : Int) ≥ ((n + 1 : Nat) : Int) ∨ (-2 : Int) + ((n + 1 : Nat) : Int) < 0
        ∨ (0 : Int) > (-2 : Int) + ((n + 1 : Nat) : Int)) := by
      push_cast
      omega
    have htake : ((-2 : Int) + ((n + 1 : Nat) : Int)).toNat + 1 = n := by
      push_cast
      omega
    rw [if_neg hcond, if_neg h0, htake]

/-- With no separator in the string, `section(sep, 0, -2)` is empty. -/
theorem section_of_not_mem (sep : Char) (p : QString) (h : sep ∉ p) :
    QString_section p sep 0 (-2) = [] := by
  rw [section_eq sep p 0 (by rw [splitOn_of_not_mem sep p h]; rfl)]
  rfl

/-- With a separator in the string, `section(sep, 0, -2)` is the text before
the last separator. -/
theorem section_of_last (sep : Char) (a b : QString) (h : sep ∉ b) :
    QString_section (a ++ sep :: b) sep 0 (-2) = a := by
  have hpos : 0 < (a.splitOn sep).length :=
    List.length_pos.mpr (List.splitOnP_ne_nil _ _)
  have hsplit : (a ++ sep :: b).splitOn sep = a.splitOn sep ++ [b] := by
    rw [splitOn_append_sep, splitOn_of_not_mem sep b h]
  rw [section_eq sep (a ++ sep :: b) (a.splitOn sep).length (by rw [hsplit]; simp)]
  rw [if_neg (by omega), hsplit, List.take_left', List.intercalate_splitOn]
  rfl

/-- C6. On a command line with a sound file and `--export`, `Arguments::parse`
returns arguments whose `outputUrl` is the URL of the `--output` value when
that URL is not empty. When it is empty, `outputUrl` is the local file URL of
the input URL's path with ".wav" in place of what follows its last '.': the text
before the last '.' followed by ".wav" for a path with a '.', and ".wav" alone
for a path without one. -/
theorem C6_outputUrl {U : Type} (qt : Qt U) (parser : QCommandLineParser)
    (first : QString) (rest : List QString)
    (hpos : parser.positionalArguments = first :: rest)
    (hexp : parser.isSet "export" = true) :
    ∃ args, Arguments.parse qt parser = some args
      ∧ args.url = qt.fromUserInput first
      ∧ (qt.isEmpty (qt.fromUserInput (parser.value "output")) = false →
          args.outputUrl = qt.fromUserInput (parser.value "output"))
      ∧ (qt.isEmpty (qt.fromUserInput (parser.value "output")) = true →
          (∀ a b : QString, qt.path args.url = a ++ '.' :: b → '.' ∉ b →
              args.outputUrl = qt.fromLocalFile (a ++ ['.', 'w', 'a', 'v']))
          ∧ ('.' ∉ qt.path args.url →
              args.outputUrl = qt.fromLocalFile ['.', 'w', 'a', 'v'])) := by
  simp only [Arguments.parse, hpos, hexp, Bool.not_true, Bool.false_eq_true, if_false]
  refine ⟨_, rfl, rfl, ?_, ?_⟩
  · intro hne
    simp only [hne, Bool.false_eq_true, if_false]
  · intro hemp
    simp only [hemp, if_true]
    constructor
    · intro a b hpath hb
      rw [hpath, section_of_last '.' a b hb]
    · intro hno
      rw [section_of_not_mem '.' _ hno]
      rfl

theorem C6_outputUrl_witness :
    exportFile.positionalArguments
        = [['m', 'y', '.', 's', 'n', 'd', '.', 's', 'f', 'x', 'r']]
    ∧ exportFile.isSet "export" = true
    ∧ ∃ args, Arguments.parse plainQt exportFile = some args
        ∧ args.outputUrl = ['m', 'y', '.', 's', 'n', 'd', '.', 'w', 'a', 'v'] := by
  refine ⟨rfl, by decide, ?_⟩
  obtain ⟨args, h1, _, _, h4⟩ := C6_outputUrl plainQt exportFile
    ['m', 'y', '.', 's', 'n', 'd', '.', 's', 'f', 'x', 'r'] [] rfl (by decide)
  have hurl : args.url = ['m', 'y', '.', 's', 'n', 'd', '.', 's', 'f', 'x', 'r'] := by
    have h5 : Arguments.parse plainQt exportFile = some args := h1
    simp only [Arguments.parse, exportFile] at h5
    rw [← Option.some.inj h5]
    rfl
  refine ⟨args, h1, ?_⟩
  exact (h4 rfl).1 ['m', 'y', '.', 's', 'n', 'd'] ['s', 'f', 'x', 'r']
    (by rw [hurl]; rfl) (by decide)

/-- C5, as the specification states it, fails on `sfxr-qt --export`: `--export`
is set, and `main` loads the QML user interface, enters the event loop and
returns what `app.exec()` returns; it does not behave as `exportSound` on any
arguments. -/
theorem C5_counterexample :
    exportOnly.isSet "export" = true
    ∧ main plainQt plainCollaborators 7 exportOnly = (7, [Effect.engineLoad, Effect.exec])
    ∧ Effect.engineLoad ∈ (main plainQt plainCollaborators 7 exportOnly).2
    ∧ Effect.exec ∈ (main plainQt plainCollaborators 7 exportOnly).2
    ∧ ∀ args, main plainQt plainCollaborators 7 exportOnly
        ≠ exportSound plainCollaborators args := by
  refine ⟨by decide, rfl, by decide, by decide, ?_⟩
  intro args h
  have h1 : (main plainQt plainCollaborators 7 exportOnly).1 = 7 := rfl
  rw [h] at h1
  simp [exportSound, plainCollaborators] at h1

/-- C5, amended. On a command line that names a sound file and on which
`--export` is set, `main` returns what `exportSound` returns on the parsed
arguments: it loads the given file, saves the wav when loading succeeded,
returns 0 when loading and saving both succeed and 1 otherwise, and neither
loads the QML user interface nor enters the event loop. -/
theorem C5_export_exits {U S : Type} (qt : Qt U) (co : Collaborators U S) (execStatus : Int)
    (parser : QCommandLineParser)
    (hpos : parser.positionalArguments ≠ [])
    (hexp : parser.isSet "export" = true) :
    ∃ args, Arguments.parse qt parser = some args
      ∧ main qt co execStatus parser = exportSound co args
      ∧ Effect.loadSound args.url ∈ (main qt co execStatus parser).2
      ∧ (∀ sound, co.load args.url = some sound →
          Effect.saveWav args.outputBits args.outputFrequency args.outputUrl
            ∈ (main qt co execStatus parser).2)
      ∧ ((∃ sound, co.load args.url = some sound
            ∧ co.save sound args.outputBits args.outputFrequency args.outputUrl = true) →
          (main qt co execStatus parser).1 = 0)
      ∧ ((¬ ∃ sound, co.load args.url = some sound
            ∧ co.save sound args.outputBits args.outputFrequency args.outputUrl = true) →
          (main qt co execStatus parser).1 = 1)
      ∧ Effect.engineLoad ∉ (main qt co execStatus parser).2
      ∧ (∀ url, Effect.loadInitialSound url ∉ (main qt co execStatus parser).2)
      ∧ Effect.exec ∉ (main qt co execStatus parser).2 := by
  cases hargs : parser.positionalArguments with
  | nil => exact absurd hargs hpos
  | cons first rest =>
    have hparse : ∃ args, Arguments.parse qt parser = some args ∧ args.export_ = true := by
      simp only [Arguments.parse, hargs, hexp, Bool.not_true, Bool.false_eq_true, if_false]
      exact ⟨_, rfl, rfl⟩
    obtain ⟨args, hp, he⟩ := hparse
    have hmain : main qt co execStatus parser = exportSound co args := by
      simp only [main, hp, he, if_true]
    refine ⟨args, hp, hmain, ?_⟩
    rw [hmain]
    unfold exportSound
    cases hload : co.load args.url with
    | none => simp
    | some sound =>
      cases hsave : co.save sound args.outputBits args.outputFrequency args.outputUrl with
      | false => simp [hsave]
      | true => simp [hsave]

theorem C5_export_exits_witness :
    exportFile.positionalArguments ≠ []
    ∧ exportFile.isSet "export" = true
    ∧ ∃ args, Arguments.parse plainQt exportFile = some args
        ∧ main plainQt plainCollaborators 7 exportFile = exportSound plainCollaborators args
        ∧ (main plainQt plainCollaborators 7 exportFile).1 = 0
        ∧ Effect.engineLoad ∉ (main plainQt plainCollaborators 7 exportFile).2
        ∧ Effect.exec ∉ (main plainQt plainCollaborators 7 exportFile).2 := by
  obtain ⟨args, h1, h2, _, _, h5, _, h7, _, h9⟩ :=
    C5_export_exits plainQt plainCollaborators 7 exportFile (by decide) (by decide)
  exact ⟨by decide, by decide, args, h1, h2, h5 ⟨(), rfl, rfl⟩, h7, h9⟩

end MainProofs

end SfxrQt
